import Mathlib

set_option autoImplicit false

/-!
Shallow embedding of the vocabulary-highlight overlay engine
(`clearVocabularyHighlights`, `highlightVocabularyInDocument`,
`applyHighlights`, `handleRelocated`, `handleClick` and the listener
rebinding code of the reader pane).

Text is modelled as `List Char`.  The matcher embeds the JavaScript
regular expression `\b(w1|w2|...)\b` with flags `gi`: a left-to-right
scan that at each position tries the alternatives in order, requires a
word boundary before and after the alternative, compares characters
case-insensitively, and resumes after the end of each match.
-/

/-- Shorthand turning a string literal into the `List Char` text model. -/
def cs (s : String) : List Char := s.toList

/-- JavaScript `\w`: ASCII letters, digits and underscore. -/
def isWordChar (c : Char) : Bool := c.isAlphanum || c == '_'

/-- Lower-casing of a word, as `String.prototype.toLowerCase` on ASCII input. -/
def lowerW (m : List Char) : List Char := m.map Char.toLower

/-- Is the character at index `i` a word character (out of range counts as no)? -/
def wcAt (t : List Char) (i : Nat) : Bool :=
  match t.get? i with
  | some c => isWordChar c
  | none => false

/-- JavaScript `\b` at position `i` of `t`: the word-char status changes
between the previous character (outside the text counts as non-word) and
the character at `i`. -/
def boundaryAt (t : List Char) (i : Nat) : Bool :=
  (if i = 0 then false else wcAt t (i - 1)) != wcAt t i

/-- Case-insensitive test that `w` occurs literally at the head of the text. -/
def ciLeads : List Char → List Char → Bool
  | [], _ => true
  | _ :: _, [] => false
  | a :: as, b :: bs => (a.toLower == b.toLower) && ciLeads as bs

/-- Try one alternative `w` of the alternation at position `i`: both word
boundaries must hold and `w` must match case-insensitively; on success the
match is the original-case slice of the text. -/
def tryWord (w t : List Char) (i : Nat) : Option (List Char) :=
  if boundaryAt t i && ciLeads w (t.drop i) && boundaryAt t (i + w.length)
  then some ((t.drop i).take w.length) else none

/-- Try the alternatives in the order they were joined into the pattern. -/
def matchAt : List (List Char) → List Char → Nat → Option (List Char)
  | [], _, _ => none
  | w :: ws, t, i =>
    match tryWord w t i with
    | some m => some m
    | none => matchAt ws t i

/-- Fuelled scan for the leftmost match at a position `≥ i`; the scan
stops past the end of the text, so a fuel of `t.length + 1 - i` is always
enough. -/
def findFromFuel (ws : List (List Char)) (t : List Char) :
    Nat → Nat → Option (Nat × List Char)
  | 0, _ => none
  | fuel + 1, i =>
    if i ≤ t.length then
      match matchAt ws t i with
      | some m => some (i, m)
      | none => findFromFuel ws t fuel (i + 1)
    else none

/-- Leftmost match of the alternation at a position `≥ i`
(how a JavaScript global regex continues from `lastIndex`). -/
def findFrom (ws : List (List Char)) (t : List Char) (i : Nat) :
    Option (Nat × List Char) :=
  findFromFuel ws t (t.length + 1 - i) i

/-- The `regex.exec` loop: collect matches left to right, resuming after
each match (fuelled; a fuel of `t.length + 1` suffices since the scan
position strictly increases). -/
def scanMatches (ws : List (List Char)) (t : List Char) :
    Nat → Nat → List (Nat × List Char)
  | 0, _ => []
  | fuel + 1, i =>
    match findFrom ws t i with
    | none => []
    | some (j, m) => (j, m) :: scanMatches ws t fuel (j + max m.length 1)

/-- All matches of the compiled alternation in `t`, with start indices. -/
def findMatches (ws : List (List Char)) (t : List Char) :
    List (Nat × List Char) :=
  scanMatches ws t (t.length + 1) 0

/-! ## The document model

A flat DOM model: a document is a list of blocks (parents of text nodes);
a block's children are text nodes, highlight spans
(`<span class="vocab-highlight" data-word=w>s</span>`), or inert childless
elements (`br`) that carry no text and separate text nodes. -/

/-- An inline node: a DOM text node, a highlight span produced by the
apply pass (`w` is the `data-word` attribute, `s` its text content), or an
inert non-text element. -/
inductive INode where
  | text (s : List Char)
  | hl (w : List Char) (s : List Char)
  | br
  deriving DecidableEq, Repr

/-- Tag of a block-level parent; `script` and `style` are the tags the
tree walk skips. -/
inductive BlockTag where
  | p
  | script
  | style
  deriving DecidableEq, Repr

/-- A parent element with its children. -/
structure Block where
  tag : BlockTag
  children : List INode
  deriving DecidableEq, Repr

/-- A document body: the list of parents of text nodes. -/
abbrev Doc := List Block

/-- `span.textContent` of a node (`br` has none). -/
def nodeText : INode → List Char
  | .text s => s
  | .hl _ s => s
  | .br => []

/-- Concatenated text content of a node list. -/
def concatText : List INode → List Char
  | [] => []
  | n :: l => nodeText n ++ concatText l

/-- Is the node a `.vocab-highlight` span? -/
def isHl : INode → Bool
  | .hl _ _ => true
  | _ => false

/-- `parent.replaceChild(doc.createTextNode(span.textContent), span)`:
a highlight span becomes a plain text node of its text. -/
def hlToText : INode → INode
  | .hl _ s => .text s
  | n => n

/-- Prepend a text of content `s` to an already normalized list, merging
with a leading text node and dropping empty text (the building step of
`Node.normalize`). -/
def consText (s : List Char) (r : List INode) : List INode :=
  if s = [] then r
  else
    match r with
    | .text s2 :: r2 => .text (s ++ s2) :: r2
    | _ => .text s :: r

/-- `parent.normalize()` on a children list: merge adjacent text nodes and
drop empty text nodes. -/
def normalizeNodes : List INode → List INode
  | [] => []
  | .text s :: l => consText s (normalizeNodes l)
  | n :: l => n :: normalizeNodes l

/-- `clearVocabularyHighlights` restricted to one parent: if the parent
holds any highlight span, every span is replaced by a plain text node of
its text and the parent is normalized; a parent without spans is never
touched (and in particular never normalized). -/
def clearNodes (l : List INode) : List INode :=
  if l.any isHl then normalizeNodes (l.map hlToText) else l

/-- Clear pass on one block. -/
def clearBlock (b : Block) : Block :=
  { b with children := clearNodes b.children }

/-- `clearVocabularyHighlights`: the clear pass over the whole document. -/
def clearDoc (d : Doc) : Doc := d.map clearBlock

/-! ## The apply pass -/

/-- The replacement-fragment builder: walk the match list keeping
`lastIndex`, emitting the plain slice before each match (only when
non-empty) and a span per match whose `data-word` is the lower-cased
matched text, then the plain tail (only when non-empty). -/
def buildFrag (t : List Char) : Nat → List (Nat × List Char) → List INode
  | li, [] => if li < t.length then [.text (t.drop li)] else []
  | li, (j, m) :: rest =>
    (if li < j then [.text ((t.drop li).take (j - li))] else [])
      ++ .hl (lowerW m) m :: buildFrag t (j + m.length) rest

/-- Processing of one text node by the apply pass: a node without matches
is left untouched; otherwise it is replaced by the built fragment. -/
def segmentText (ws : List (List Char)) (t : List Char) : List INode :=
  match findMatches ws t with
  | [] => [.text t]
  | ms => buildFrag t 0 ms

/-- Per-node action of the apply pass: the tree walk only yields text
nodes; text inside a highlight span is skipped, elements are untouched. -/
def applyNode (ws : List (List Char)) : INode → List INode
  | .text s => segmentText ws s
  | n => [n]

/-- Apply pass over a children list. -/
def applyNodes (ws : List (List Char)) : List INode → List INode
  | [] => []
  | n :: l => applyNode ws n ++ applyNodes ws l

/-- The walk skips text whose parent is `SCRIPT` or `STYLE`. -/
def skipTag : BlockTag → Bool
  | .script => true
  | .style => true
  | .p => false

/-- Apply pass on one block. -/
def applyBlock (ws : List (List Char)) (b : Block) : Block :=
  if skipTag b.tag then b else { b with children := applyNodes ws b.children }

/-- Apply pass over the whole document. -/
def applyDoc (ws : List (List Char)) (d : Doc) : Doc :=
  d.map (applyBlock ws)

/-! ## Term-list normalization and the full reconciliation pass -/

/-- `String.prototype.trim`. -/
def trimWord (w : List Char) : List Char :=
  ((w.dropWhile Char.isWhitespace).reverse.dropWhile Char.isWhitespace).reverse

/-- `Array.from(new Set(list))`: keep the first occurrence of each exact
string, in order (`seen` holds the strings already emitted). -/
def dedupSeen (seen : List (List Char)) : List (List Char) → List (List Char)
  | [] => []
  | x :: xs => if x ∈ seen then dedupSeen seen xs else x :: dedupSeen (x :: seen) xs

/-- The word list compiled into the matcher alternation: trim each
vocabulary word, drop empties, deduplicate exact strings. -/
def computeWords (vocab : List (List Char)) : List (List Char) :=
  dedupSeen [] ((vocab.map trimWord).filter (fun w => w.length > 0))

/-- `highlightVocabularyInDocument` restricted to its document rewriting:
clear pass, then word-list computation, then — unless the word list is
empty, in which case the function returns right after the clear — the
apply pass. -/
def reconcile (vocab : List (List Char)) (d : Doc) : Doc :=
  let d1 := clearDoc d
  let ws := computeWords vocab
  if ws.isEmpty then d1 else applyDoc ws d1

/-- Number of highlight spans in a children list. -/
def countHlNodes : List INode → Nat
  | [] => 0
  | n :: l => (if isHl n then 1 else 0) + countHlNodes l

/-- Number of highlight spans in a document. -/
def countHlDoc : Doc → Nat
  | [] => 0
  | b :: d => countHlNodes b.children + countHlDoc d

/-- Text content of the whole document body. -/
def docText : Doc → List Char
  | [] => []
  | b :: d => concatText b.children ++ docText d

/-- A children list is normalized when no text node is empty and no two
text nodes are adjacent siblings (the state `Node.normalize` leaves a
parsed or freshly normalized parent in). -/
def headNotText : List INode → Bool
  | .text _ :: _ => false
  | _ => true

def normalizedB : List INode → Bool
  | [] => true
  | .text s :: l => !s.isEmpty && headNotText l && normalizedB l
  | _ :: l => normalizedB l

/-- Every block of the document is normalized. -/
def docNormalized (d : Doc) : Bool := d.all (fun b => normalizedB b.children)

/-! ## Click-listener rebinding

`highlightVocabularyInDocument` ends with: read the handler stored on the
document, remove it as a click listener if present, store the fresh
handler, add it as a click listener.  Handlers are fresh closures, one per
pass, modelled by the pass number. -/

/-- The registered click listeners of a document together with the ad hoc
`_vocabClickHandler` slot stored on the document object. -/
structure DocListeners where
  slot : Option Nat
  listeners : List Nat
  deriving DecidableEq, Repr

/-- `removeEventListener('click', p)`: removes the matching registration
when present, a no-op otherwise. -/
def removeClickListener (ls : List Nat) (p : Nat) : List Nat := ls.erase p

/-- `addEventListener('click', h)`: duplicate registrations of the same
listener are ignored. -/
def addClickListener (ls : List Nat) (h : Nat) : List Nat :=
  if h ∈ ls then ls else ls ++ [h]

/-- The rebinding step at the end of one reconciliation pass. -/
def rebindClickHandler (st : DocListeners) (h : Nat) : DocListeners :=
  let ls :=
    match st.slot with
    | some p => removeClickListener st.listeners p
    | none => st.listeners
  { slot := some h, listeners := addClickListener ls h }

/-- `n` consecutive reconciliation passes that reach the rebinding step,
starting from a document with no handler bound; pass `k` binds the fresh
handler `k`. -/
def runRebindPasses : Nat → DocListeners
  | 0 => ⟨none, []⟩
  | n + 1 => rebindClickHandler (runRebindPasses n) n

/-! ## Relocation scheduling

`handleRelocated` is `() => setTimeout(applyHighlights, 150)`: every
relocation notification schedules one new deferred run; no timer handle is
kept and no `clearTimeout` is ever called. -/

/-- Effect of one relocation notification at time `now` on the list of
pending timer deadlines. -/
def relocTimer (pending : List Nat) (now : Nat) : List Nat :=
  pending ++ [now + 150]

/-- Pending deferred runs after a burst of relocation notifications at the
given times, starting with no pending timer. -/
def relocationBurst (ts : List Nat) : List Nat :=
  ts.foldl relocTimer []

/-! ## Popover horizontal placement (desktop branch of `handleClick`) -/

/-- The desktop horizontal placement: start at the anchor's left edge,
clamp to `maxLeft = mainWindowWidth - rightSidebarWidth - padding -
tipWidth` with `padding = 16`, then force a minimum left of 8. -/
def popoverLeft (mainWindowWidth rightSidebarWidth tipWidth rectLeft : Int) : Int :=
  let padding : Int := 16
  let availableWidth := mainWindowWidth - rightSidebarWidth - padding
  let maxLeft := availableWidth - tipWidth
  let left1 := if rectLeft > maxLeft then maxLeft else rectLeft
  if left1 < 8 then 8 else left1

/-! ## Concrete documents used by counterexamples and witnesses -/

/-- A paragraph holding two adjacent text nodes whose concatenation mends
the word `cats` around the node break. -/
def exSplitDoc : Doc := [⟨.p, [.text (cs "a cat"), .text (cs "s here")]⟩]

/-- The singleton vocabulary `cat`. -/
def exCatVocab : List (List Char) := [cs "cat"]

/-- A normalized one-paragraph document. -/
def exNormDoc : Doc := [⟨.p, [.text (cs "a cat here"), .br, .text (cs "the cat")]⟩]

/-- A previously annotated document (one live highlight span). -/
def exAnnotatedDoc : Doc :=
  [⟨.p, [.text (cs "a "), .hl (cs "cat") (cs "cat"), .text (cs " here")]⟩]

/-- Only text nodes (the shape of a replacement fragment after its spans
are replaced by their texts). -/
def allText : List INode → Bool
  | [] => true
  | .text _ :: l => allText l
  | _ => false

/-- The shape invariant of a match list produced from scan position `i`:
starts are increasing, each matched text is the slice of the text at its
start, and matches stay inside the text. -/
inductive ValidFrom (t : List Char) : Nat → List (Nat × List Char) → Prop
  | nil (i : Nat) : ValidFrom t i []
  | cons (i j : Nat) (m : List Char) (rest : List (Nat × List Char))
      (hij : i ≤ j) (hm : m = (t.drop j).take m.length)
      (hend : j + m.length ≤ t.length)
      (hrest : ValidFrom t (j + m.length) rest) :
      ValidFrom t i ((j, m) :: rest)

/-! ## Validity of the match list -/

theorem take_length_take {α : Type} (l : List α) (n : Nat) :
    l.take ((l.take n).length) = l.take n := by
  induction l generalizing n with
  | nil => simp
  | cons a l ih =>
    cases n with
    | zero => simp
    | succ n => simp [List.take_succ_cons, ih]

theorem tryWord_sound {w t : List Char} {i : Nat} {m : List Char}
    (hi : i ≤ t.length) (h : tryWord w t i = some m) :
    m = (t.drop i).take m.length ∧ i + m.length ≤ t.length := by
  unfold tryWord at h
  split at h
  · cases h
    refine ⟨(take_length_take _ _).symm, ?_⟩
    have h1 : ((t.drop i).take w.length).length = min w.length (t.drop i).length :=
      List.length_take _ _
    rw [List.length_drop] at h1
    omega
  · cases h

theorem matchAt_sound {ws : List (List Char)} {t : List Char} {i : Nat}
    {m : List Char} (hi : i ≤ t.length) (h : matchAt ws t i = some m) :
    m = (t.drop i).take m.length ∧ i + m.length ≤ t.length := by
  induction ws with
  | nil => cases h
  | cons w ws ih =>
    unfold matchAt at h
    cases hw : tryWord w t i with
    | some m' => rw [hw] at h; cases h; exact tryWord_sound hi hw
    | none => rw [hw] at h; exact ih h

theorem findFromFuel_sound {ws : List (List Char)} {t : List Char} :
    ∀ {fuel i j : Nat} {m : List Char},
      findFromFuel ws t fuel i = some (j, m) →
      i ≤ j ∧ j ≤ t.length ∧ m = (t.drop j).take m.length ∧
        j + m.length ≤ t.length := by
  intro fuel
  induction fuel with
  | zero => intro i j m h; cases h
  | succ fuel ih =>
    intro i j m h
    unfold findFromFuel at h
    split at h
    · rename_i hle
      cases hm : matchAt ws t i with
      | some m' =>
        rw [hm] at h
        cases h
        have := matchAt_sound hle hm
        exact ⟨Nat.le_refl _, hle, this.1, this.2⟩
      | none =>
        rw [hm] at h
        have := ih h
        exact ⟨Nat.le_of_succ_le this.1, this.2.1, this.2.2⟩
    · cases h

theorem findFrom_sound {ws : List (List Char)} {t : List Char} {i j : Nat}
    {m : List Char} (h : findFrom ws t i = some (j, m)) :
    i ≤ j ∧ j ≤ t.length ∧ m = (t.drop j).take m.length ∧
      j + m.length ≤ t.length :=
  findFromFuel_sound h

theorem ValidFrom.anti {t : List Char} {i : Nat} {l : List (Nat × List Char)}
    (h : ValidFrom t i l) {i' : Nat} (hle : i' ≤ i) : ValidFrom t i' l := by
  cases h with
  | nil => exact ValidFrom.nil i'
  | cons i j m rest hij hm hend hrest =>
    exact ValidFrom.cons i' j m rest (Nat.le_trans hle hij) hm hend hrest

theorem scanMatches_valid (ws : List (List Char)) (t : List Char) :
    ∀ (fuel i : Nat), ValidFrom t i (scanMatches ws t fuel i) := by
  intro fuel
  induction fuel with
  | zero => intro i; exact ValidFrom.nil i
  | succ fuel ih =>
    intro i
    unfold scanMatches
    cases h : findFrom ws t i with
    | none => exact ValidFrom.nil i
    | some jm =>
      obtain ⟨j, m⟩ := jm
      have hs := findFrom_sound h
      refine ValidFrom.cons i j m _ hs.1 hs.2.2.1 hs.2.2.2 ?_
      exact (ih (j + max m.length 1)).anti (by omega)

theorem findMatches_valid (ws : List (List Char)) (t : List Char) :
    ValidFrom t 0 (findMatches ws t) :=
  scanMatches_valid ws t (t.length + 1) 0

/-! ## Text-content preservation -/

theorem concatText_append (a b : List INode) :
    concatText (a ++ b) = concatText a ++ concatText b := by
  induction a with
  | nil => simp [concatText]
  | cons n a ih => simp [concatText, ih]

theorem buildFrag_text {t : List Char} :
    ∀ {li : Nat} {ms : List (Nat × List Char)}, ValidFrom t li ms →
      concatText (buildFrag t li ms) = t.drop li := by
  intro li ms h
  induction h with
  | nil i =>
    unfold buildFrag
    split
    · simp [concatText, nodeText]
    · rename_i hge
      simp only [concatText]
      exact (List.drop_eq_nil_of_le (by omega)).symm
  | cons i j m rest hij hm hend hrest ih =>
    unfold buildFrag
    rw [concatText_append]
    have hstepA : m ++ t.drop (j + m.length) = t.drop j := by
      conv_rhs => rw [← List.take_append_drop m.length (t.drop j)]
      rw [← hm, List.drop_drop, Nat.add_comm]
    by_cases hlj : i < j
    · simp only [hlj, if_pos, concatText, nodeText, List.append_nil, ih]
      rw [hstepA]
      have hdj : t.drop j = (t.drop i).drop (j - i) := by
        rw [List.drop_drop]
        congr 1
        omega
      rw [hdj, List.take_append_drop]
    · have hij' : i = j := by omega
      simp only [hlj, if_neg, not_false_iff, concatText, nodeText, ih,
        List.nil_append]
      rw [hstepA, hij']

theorem segmentText_text (ws : List (List Char)) (t : List Char) :
    concatText (segmentText ws t) = t := by
  cases h : findMatches ws t with
  | nil => simp [segmentText, h, concatText, nodeText]
  | cons a l =>
    have hv := findMatches_valid ws t
    rw [h] at hv
    have := buildFrag_text hv
    simpa [segmentText, h] using this

theorem applyNodes_text (ws : List (List Char)) (l : List INode) :
    concatText (applyNodes ws l) = concatText l := by
  induction l with
  | nil => rfl
  | cons n l ih =>
    simp only [applyNodes, concatText, concatText_append, ih]
    cases n with
    | text s => simp [applyNode, segmentText_text, nodeText]
    | hl w s => simp [applyNode, concatText, nodeText]
    | br => simp [applyNode, concatText, nodeText]

theorem applyDoc_text (ws : List (List Char)) (d : Doc) :
    docText (applyDoc ws d) = docText d := by
  induction d with
  | nil => rfl
  | cons b d ih =>
    simp only [applyDoc, List.map_cons, docText]
    rw [show docText (List.map (applyBlock ws) d) = docText d from ih]
    unfold applyBlock
    split
    · rfl
    · simp [applyNodes_text]

theorem consText_text (s : List Char) (r : List INode) :
    concatText (consText s r) = s ++ concatText r := by
  unfold consText
  split
  · simp_all
  · cases r with
    | nil => simp [concatText, nodeText]
    | cons n r2 =>
      cases n with
      | text s2 => simp [concatText, nodeText]
      | hl w s2 => simp [concatText, nodeText]
      | br => simp [concatText, nodeText]

theorem normalizeNodes_text (l : List INode) :
    concatText (normalizeNodes l) = concatText l := by
  induction l with
  | nil => rfl
  | cons n l ih =>
    cases n with
    | text s => simp [normalizeNodes, consText_text, ih, concatText, nodeText]
    | hl w s => simp [normalizeNodes, concatText, ih]
    | br => simp [normalizeNodes, concatText, ih]

theorem map_hlToText_text (l : List INode) :
    concatText (l.map hlToText) = concatText l := by
  induction l with
  | nil => rfl
  | cons n l ih =>
    cases n <;> simp [hlToText, concatText, nodeText, ih]

theorem clearNodes_text (l : List INode) :
    concatText (clearNodes l) = concatText l := by
  unfold clearNodes
  split
  · rw [normalizeNodes_text, map_hlToText_text]
  · rfl

theorem clearDoc_text (d : Doc) : docText (clearDoc d) = docText d := by
  induction d with
  | nil => rfl
  | cons b d ih =>
    show concatText (clearBlock b).children ++ docText (List.map clearBlock d) =
      concatText b.children ++ docText d
    rw [show (clearBlock b).children = clearNodes b.children from rfl,
      clearNodes_text, show List.map clearBlock d = clearDoc d from rfl, ih]

/-! ## Highlight-freeness of the clear pass -/

theorem any_isHl_map_hlToText (l : List INode) :
    (l.map hlToText).any isHl = false := by
  induction l with
  | nil => rfl
  | cons n l ih => cases n <;> simp [hlToText, isHl, ih]

theorem any_isHl_consText (s : List Char) (r : List INode) :
    (consText s r).any isHl = r.any isHl := by
  unfold consText
  split
  · rfl
  · cases r with
    | nil => simp [isHl]
    | cons n r2 => cases n <;> simp [isHl]

theorem any_isHl_normalizeNodes (l : List INode) :
    (normalizeNodes l).any isHl = l.any isHl := by
  induction l with
  | nil => rfl
  | cons n l ih =>
    cases n with
    | text s => simp [normalizeNodes, any_isHl_consText, ih, isHl]
    | hl w s => simp [normalizeNodes, isHl, ih]
    | br => simp [normalizeNodes, isHl, ih]

theorem clearNodes_hlFree (l : List INode) : (clearNodes l).any isHl = false := by
  unfold clearNodes
  split
  · rw [any_isHl_normalizeNodes, any_isHl_map_hlToText]
  · simp_all

theorem clearNodes_of_hlFree {l : List INode} (h : l.any isHl = false) :
    clearNodes l = l := by
  unfold clearNodes
  simp [h]

theorem clearNodes_idem (l : List INode) :
    clearNodes (clearNodes l) = clearNodes l :=
  clearNodes_of_hlFree (clearNodes_hlFree l)

theorem clearDoc_idem (d : Doc) : clearDoc (clearDoc d) = clearDoc d := by
  induction d with
  | nil => rfl
  | cons b d ih =>
    show clearBlock (clearBlock b) :: clearDoc (clearDoc d) =
      clearBlock b :: clearDoc d
    rw [ih]
    unfold clearBlock
    simp [clearNodes_idem]

theorem countHlNodes_eq_zero {l : List INode} (h : l.any isHl = false) :
    countHlNodes l = 0 := by
  induction l with
  | nil => rfl
  | cons n l ih =>
    simp only [List.any_cons, Bool.or_eq_false_iff] at h
    simp [countHlNodes, h.1, ih h.2]

theorem countHlDoc_clearDoc (d : Doc) : countHlDoc (clearDoc d) = 0 := by
  induction d with
  | nil => rfl
  | cons b d ih =>
    show countHlNodes (clearBlock b).children + countHlDoc (clearDoc d) = 0
    rw [ih, show (clearBlock b).children = clearNodes b.children from rfl,
      countHlNodes_eq_zero (clearNodes_hlFree b.children)]

/-! ## Normalization invariants -/

theorem normalizedB_consText {r : List INode} (h : normalizedB r = true)
    (s : List Char) : normalizedB (consText s r) = true := by
  unfold consText
  split
  · exact h
  · rename_i hs
    have hne0 : s.isEmpty = false := by
      cases s with
      | nil => exact absurd rfl hs
      | cons a s => rfl
    cases r with
    | nil =>
      show (!s.isEmpty && headNotText [] && normalizedB []) = true
      rw [hne0]
      rfl
    | cons n r2 =>
      cases n with
      | text s2 =>
        have hne : (s ++ s2).isEmpty = false := by
          cases s with
          | nil => exact absurd rfl hs
          | cons a s => rfl
        have h' : (!s2.isEmpty && headNotText r2 && normalizedB r2) = true := h
        show (!(s ++ s2).isEmpty && headNotText r2 && normalizedB r2) = true
        rw [hne]
        simp only [Bool.and_eq_true] at h' ⊢
        exact ⟨⟨rfl, h'.1.2⟩, h'.2⟩
      | hl w s2 =>
        have h' : normalizedB r2 = true := h
        have e1 : normalizedB (INode.hl w s2 :: r2) = normalizedB r2 := rfl
        have e2 : headNotText (INode.hl w s2 :: r2) = true := rfl
        show (!s.isEmpty && headNotText (INode.hl w s2 :: r2)
          && normalizedB (INode.hl w s2 :: r2)) = true
        rw [hne0, e1, e2, h']
        rfl
      | br =>
        have h' : normalizedB r2 = true := h
        have e1 : normalizedB (INode.br :: r2) = normalizedB r2 := rfl
        have e2 : headNotText (INode.br :: r2) = true := rfl
        show (!s.isEmpty && headNotText (INode.br :: r2)
          && normalizedB (INode.br :: r2)) = true
        rw [hne0, e1, e2, h']
        rfl

theorem normalizedB_normalizeNodes (l : List INode) :
    normalizedB (normalizeNodes l) = true := by
  induction l with
  | nil => rfl
  | cons n l ih =>
    cases n with
    | text s => exact normalizedB_consText ih s
    | hl w s => simpa [normalizeNodes, normalizedB] using ih
    | br => simpa [normalizeNodes, normalizedB] using ih

theorem clearNodes_normalized {l : List INode} (h : normalizedB l = true) :
    normalizedB (clearNodes l) = true := by
  unfold clearNodes
  split
  · exact normalizedB_normalizeNodes _
  · exact h

/-! ## Structure of apply-pass output -/

theorem segmentText_shape (ws : List (List Char)) (s : List Char) :
    segmentText ws s = [.text s] ∨ (segmentText ws s).any isHl = true := by
  unfold segmentText
  cases h : findMatches ws s with
  | nil => exact Or.inl rfl
  | cons a ms =>
    right
    obtain ⟨j, m⟩ := a
    unfold buildFrag
    simp [isHl, List.any_append]

theorem applyNodes_eq_of_hlFree {ws : List (List Char)} :
    ∀ {c : List INode}, (applyNodes ws c).any isHl = false →
      c.any isHl = false → applyNodes ws c = c := by
  intro c
  induction c with
  | nil => intro _ _; rfl
  | cons n c ih =>
    intro hout hin
    simp only [List.any_cons, Bool.or_eq_false_iff] at hin
    simp only [applyNodes, List.any_append, Bool.or_eq_false_iff] at hout
    cases n with
    | text s =>
      cases segmentText_shape ws s with
      | inl heq =>
        show segmentText ws s ++ applyNodes ws c = INode.text s :: c
        rw [heq, ih hout.2 hin.2]
        rfl
      | inr hhl =>
        exfalso
        have := hout.1
        rw [show applyNode ws (INode.text s) = segmentText ws s from rfl] at this
        rw [hhl] at this
        cases this
    | hl w s => cases hin.1
    | br =>
      show [INode.br] ++ applyNodes ws c = INode.br :: c
      rw [ih hout.2 hin.2]
      rfl

theorem buildFrag_map_allText (t : List Char) :
    ∀ (ms : List (Nat × List Char)) (li : Nat),
      allText ((buildFrag t li ms).map hlToText) = true := by
  intro ms
  induction ms with
  | nil =>
    intro li
    unfold buildFrag
    split <;> rfl
  | cons a rest ih =>
    intro li
    obtain ⟨j, m⟩ := a
    unfold buildFrag
    rw [List.map_append]
    split <;> simp [hlToText, allText, ih]

theorem segmentText_map_allText (ws : List (List Char)) (s : List Char) :
    allText ((segmentText ws s).map hlToText) = true := by
  unfold segmentText
  cases h : findMatches ws s with
  | nil => rfl
  | cons a ms => exact buildFrag_map_allText s (a :: ms) 0

theorem consText_consText (s s2 : List Char) (r : List INode) :
    consText s (consText s2 r) = consText (s ++ s2) r := by
  by_cases hs : s = []
  · subst hs
    simp [consText]
  · by_cases hs2 : s2 = []
    · subst hs2
      have e : consText ([] : List Char) r = r := by simp [consText]
      rw [e, List.append_nil]
    · have e2 : consText s2 r = (match r with
        | .text s3 :: r3 => .text (s2 ++ s3) :: r3
        | _ => .text s2 :: r) := by
        unfold consText
        simp [hs2]
      have hss2 : s ++ s2 ≠ [] := by
        cases s with
        | nil => exact absurd rfl hs
        | cons a s => simp
      cases r with
      | nil =>
        rw [e2]
        unfold consText
        simp [hs, hss2]
      | cons n r3 =>
        cases n with
        | text s3 =>
          rw [e2]
          unfold consText
          simp [hs, hss2, List.append_assoc]
        | hl w s3 =>
          rw [e2]
          unfold consText
          simp [hs, hss2]
        | br =>
          rw [e2]
          unfold consText
          simp [hs, hss2]

theorem normalizeNodes_allText_append {xs : List INode} (h : allText xs = true)
    (ys : List INode) :
    normalizeNodes (xs ++ ys) = consText (concatText xs) (normalizeNodes ys) := by
  induction xs with
  | nil =>
    show normalizeNodes ys = consText [] (normalizeNodes ys)
    simp [consText]
  | cons n xs ih =>
    cases n with
    | text s =>
      have h' : allText xs = true := h
      show consText s (normalizeNodes (xs ++ ys)) =
        consText (s ++ concatText xs) (normalizeNodes ys)
      rw [ih h', consText_consText]
    | hl w s => exact absurd h (by simp [allText])
    | br => exact absurd h (by simp [allText])

theorem normalizeNodes_apply_clear {ws : List (List Char)} :
    ∀ {c : List INode}, normalizedB c = true → c.any isHl = false →
      normalizeNodes ((applyNodes ws c).map hlToText) = c := by
  intro c
  induction c with
  | nil => intro _ _; rfl
  | cons n c ih =>
    intro hnorm hfree
    simp only [List.any_cons, Bool.or_eq_false_iff] at hfree
    cases n with
    | text s =>
      have h1 : (!s.isEmpty && headNotText c && normalizedB c) = true := hnorm
      simp only [Bool.and_eq_true] at h1
      show normalizeNodes ((segmentText ws s ++ applyNodes ws c).map hlToText) =
        INode.text s :: c
      rw [List.map_append,
        normalizeNodes_allText_append (segmentText_map_allText ws s),
        map_hlToText_text, segmentText_text, ih h1.2 hfree.2]
      unfold consText
      have hs : ¬s = [] := by
        intro hcon
        rw [hcon] at h1
        exact absurd h1.1.1 (by simp)
      simp only [hs, if_neg, not_false_iff]
      cases c with
      | nil => rfl
      | cons n2 c2 =>
        cases n2 with
        | text s2 => exact absurd h1.1.2 (by simp [headNotText])
        | hl w2 s2 => rfl
        | br => rfl
    | hl w s => exact absurd hfree.1 (by simp [isHl])
    | br =>
      have h1 : normalizedB c = true := hnorm
      show INode.br :: normalizeNodes ((applyNodes ws c).map hlToText) =
        INode.br :: c
      rw [ih h1 hfree.2]

theorem clearNodes_applyNodes {ws : List (List Char)} {c : List INode}
    (hnorm : normalizedB c = true) (hfree : c.any isHl = false) :
    clearNodes (applyNodes ws c) = c := by
  unfold clearNodes
  split
  · exact normalizeNodes_apply_clear hnorm hfree
  · rename_i h
    rw [Bool.not_eq_true] at h
    exact applyNodes_eq_of_hlFree h hfree

theorem clearBlock_applyBlock_clearBlock {ws : List (List Char)} {b : Block}
    (h : normalizedB b.children = true) :
    clearBlock (applyBlock ws (clearBlock b)) = clearBlock b := by
  unfold applyBlock
  split
  · show clearBlock (clearBlock b) = clearBlock b
    unfold clearBlock
    simp [clearNodes_idem]
  · show clearBlock ⟨b.tag, applyNodes ws (clearBlock b).children⟩ = clearBlock b
    unfold clearBlock
    simp only
    congr 1
    exact clearNodes_applyNodes (clearNodes_normalized h) (clearNodes_hlFree _)

theorem clearDoc_applyDoc_clearDoc {ws : List (List Char)} :
    ∀ {d : Doc}, docNormalized d = true →
      clearDoc (applyDoc ws (clearDoc d)) = clearDoc d := by
  intro d
  induction d with
  | nil => intro _; rfl
  | cons b d ih =>
    intro h
    simp only [docNormalized, List.all_cons, Bool.and_eq_true] at h
    show clearBlock (applyBlock ws (clearBlock b)) ::
        clearDoc (applyDoc ws (clearDoc d)) = clearBlock b :: clearDoc d
    rw [clearBlock_applyBlock_clearBlock h.1, ih h.2]

theorem reconcile_idem {vocab : List (List Char)} {d : Doc}
    (h : docNormalized d = true) :
    reconcile vocab (reconcile vocab d) = reconcile vocab d := by
  unfold reconcile
  by_cases he : (computeWords vocab).isEmpty
  · simp only [he, if_pos, clearDoc_idem]
  · simp only [he, if_neg, Bool.not_eq_true]
    rw [clearDoc_applyDoc_clearDoc h]

theorem reconcile_text (vocab : List (List Char)) (d : Doc) :
    docText (reconcile vocab d) = docText d := by
  simp only [reconcile]
  split
  · exact clearDoc_text d
  · rw [applyDoc_text, clearDoc_text]

/-! ## Empty and blank term lists -/

theorem computeWords_of_blank {vocab : List (List Char)}
    (h : ∀ w ∈ vocab, trimWord w = []) : computeWords vocab = [] := by
  unfold computeWords
  have hf : (vocab.map trimWord).filter (fun w => w.length > 0) = [] := by
    rw [List.filter_eq_nil_iff]
    intro a ha
    rw [List.mem_map] at ha
    obtain ⟨w, hw, rfl⟩ := ha
    rw [h w hw]
    simp
  rw [hf]
  rfl

theorem reconcile_of_no_words {vocab : List (List Char)} {d : Doc}
    (h : computeWords vocab = []) : reconcile vocab d = clearDoc d := by
  unfold reconcile
  rw [h]
  rfl

/-! ## Deduplication -/

theorem mem_dedupSeen {x : List Char} :
    ∀ {l seen : List (List Char)}, x ∈ dedupSeen seen l → x ∈ l ∧ x ∉ seen := by
  intro l
  induction l with
  | nil => intro seen h; cases h
  | cons y ys ih =>
    intro seen h
    unfold dedupSeen at h
    split at h
    · have := ih h
      exact ⟨List.mem_cons_of_mem _ this.1, this.2⟩
    · rename_i hy
      cases h with
      | head => exact ⟨List.mem_cons_self _ _, hy⟩
      | tail _ h2 =>
        have := ih h2
        refine ⟨List.mem_cons_of_mem _ this.1, ?_⟩
        intro hx
        exact this.2 (List.mem_cons_of_mem _ hx)

theorem dedupSeen_nodup : ∀ (l seen : List (List Char)), (dedupSeen seen l).Nodup := by
  intro l
  induction l with
  | nil => intro seen; exact List.nodup_nil
  | cons y ys ih =>
    intro seen
    unfold dedupSeen
    split
    · exact ih seen
    · rw [List.nodup_cons]
      refine ⟨?_, ih (y :: seen)⟩
      intro hy
      exact (mem_dedupSeen hy).2 (List.mem_cons_self _ _)

/-! ## Listener rebinding invariant -/

theorem runRebindPasses_closed_form :
    ∀ n : Nat, runRebindPasses (n + 1) = ⟨some n, [n]⟩ := by
  intro n
  induction n with
  | zero => rfl
  | succ n ih =>
    show rebindClickHandler (runRebindPasses (n + 1)) (n + 1) = _
    rw [ih]
    unfold rebindClickHandler removeClickListener addClickListener
    simp

/-! ## Relocation timers -/

theorem foldl_relocTimer_length :
    ∀ (ts acc : List Nat), (ts.foldl relocTimer acc).length = acc.length + ts.length := by
  intro ts
  induction ts with
  | nil => intro acc; rfl
  | cons t ts ih =>
    intro acc
    show (ts.foldl relocTimer (relocTimer acc t)).length = _
    rw [ih]
    unfold relocTimer
    simp
    omega

/-! ## The claims -/

/-- Claim C1, counterexample: on a paragraph holding the two adjacent text
nodes `"a cat"` and `"s here"` with the term set `{cat}`, one full
reconciliation pass highlights the node-local standalone `cat` (one span),
but a second pass first merges the text nodes into `"a cats here"`, where
`cat` no longer sits at a word boundary, so the second pass produces no
span: the markup of two passes differs from the markup of one. -/
theorem C1_counterexample :
    reconcile exCatVocab (reconcile exCatVocab exSplitDoc) ≠
      reconcile exCatVocab exSplitDoc ∧
    countHlDoc (reconcile exCatVocab exSplitDoc) = 1 ∧
    countHlDoc (reconcile exCatVocab (reconcile exCatVocab exSplitDoc)) = 0 := by
  decide

/-- Claim C1, amended: for every term set and every document in which no
block holds an empty text node or two adjacent text-node siblings (the
state a parsed or freshly normalized document is in), running one full
reconciliation pass (clear then apply) twice in succession with no change
in between produces a document identical to running the pass once. -/
theorem C1_reconcile_idempotent (vocab : List (List Char)) (d : Doc)
    (h : docNormalized d = true) :
    reconcile vocab (reconcile vocab d) = reconcile vocab d :=
  reconcile_idem h

/-- Witness for C1: a concrete normalized document and term set to which
the amended idempotence theorem applies. -/
theorem C1_witness :
    docNormalized exNormDoc = true ∧
    reconcile exCatVocab (reconcile exCatVocab exNormDoc) =
      reconcile exCatVocab exNormDoc :=
  ⟨by decide, C1_reconcile_idempotent exCatVocab exNormDoc (by decide)⟩

/-- Claim C2: for every term set and every document, running the clear
pass on the document annotated for that term set restores a text content
string-equal to the pre-annotation text content. -/
theorem C2_clear_round_trip (vocab : List (List Char)) (d : Doc) :
    docText (clearDoc (reconcile vocab d)) = docText d := by
  rw [clearDoc_text, reconcile_text]

/-- Claim C3, counterexample: two relocation notifications 10ms apart
(well inside the 150ms delay) leave two pending deferred runs, not one:
`handleRelocated` keeps no timer handle and never cancels, so a burst does
not collapse into a single pending reconciliation run. -/
theorem C3_counterexample :
    (relocationBurst [0, 10]).length = 2 ∧
    ¬(relocationBurst [0, 10]).length = 1 := by
  decide

/-- Claim C3, amended: each relocation notification schedules its own
deferred run after 150ms and no notification cancels a pending timer, so a
burst of N notifications leaves exactly N pending deferred runs, one per
notification. -/
theorem C3_one_timer_per_notification (ts : List Nat) :
    (relocationBurst ts).length = ts.length := by
  simpa [relocationBurst] using foldl_relocTimer_length ts []

/-- Claim C4: after N consecutive reconciliation passes (N ≥ 2) over the
same document, exactly one click handler is bound to the document: each
pass removes the handler stored on the document before attaching its fresh
one. -/
theorem C4_listener_invariant (n : Nat) (h : 2 ≤ n) :
    (runRebindPasses n).listeners.length = 1 := by
  cases n with
  | zero => omega
  | succ m => rw [runRebindPasses_closed_form]; rfl

/-- Witness for C4: three consecutive passes leave exactly one bound
handler. -/
theorem C4_witness :
    2 ≤ 3 ∧ (runRebindPasses 3).listeners.length = 1 :=
  ⟨by decide, C4_listener_invariant 3 (by decide)⟩

/-- Claim C5: with the term set `{cat}`, the text node
`"concatenate a cat"` is rewritten into exactly one highlight span,
wrapping the standalone `cat`; the `cat` inside `concatenate` is not
matched. -/
theorem C5_whole_word :
    segmentText (computeWords [cs "cat"]) (cs "concatenate a cat") =
      [.text (cs "concatenate a "), .hl (cs "cat") (cs "cat")] ∧
    countHlNodes (segmentText (computeWords [cs "cat"])
      (cs "concatenate a cat")) = 1 := by
  decide

/-- Claim C6: with the term `ubiquitous`, the text node
`"It was ubiquitous and UBIQUITOUS."` is rewritten into exactly two
highlight spans, and the `data-word` attribute of each is the lower-cased
word `ubiquitous`. -/
theorem C6_case_insensitive :
    segmentText (computeWords [cs "ubiquitous"])
      (cs "It was ubiquitous and UBIQUITOUS.") =
      [.text (cs "It was "), .hl (cs "ubiquitous") (cs "ubiquitous"),
       .text (cs " and "), .hl (cs "ubiquitous") (cs "UBIQUITOUS"),
       .text (cs ".")] ∧
    countHlNodes (segmentText (computeWords [cs "ubiquitous"])
      (cs "It was ubiquitous and UBIQUITOUS.")) = 2 := by
  decide

/-- Claim C7: a reconciliation pass whose vocabulary contains only
blank/whitespace-only words (hence also the empty vocabulary) only runs
the clear pass — the result is exactly the cleared document — and the
resulting document carries no highlight span at all. -/
theorem C7_empty_terms (vocab : List (List Char)) (d : Doc)
    (h : ∀ w ∈ vocab, trimWord w = []) :
    reconcile vocab d = clearDoc d ∧ countHlDoc (reconcile vocab d) = 0 := by
  have h1 := reconcile_of_no_words (d := d) (computeWords_of_blank h)
  refine ⟨h1, ?_⟩
  rw [h1]
  exact countHlDoc_clearDoc d

/-- Witness for C7: a blank-only vocabulary clears a previously annotated
document and leaves zero spans. -/
theorem C7_witness :
    (∀ w ∈ [cs "   ", cs ""], trimWord w = []) ∧
    (reconcile [cs "   ", cs ""] exAnnotatedDoc = clearDoc exAnnotatedDoc ∧
      countHlDoc (reconcile [cs "   ", cs ""] exAnnotatedDoc) = 0) :=
  ⟨by decide, C7_empty_terms [cs "   ", cs ""] exAnnotatedDoc (by decide)⟩

/-- Claim C8, counterexample: with viewport width 800, reserved sidebar
width 320 and a popover of width 465, an anchor at left 100 yields a final
left of 8 and a right edge of 473, exceeding the claimed bound
`800 - 320 - 8 = 472`: the claim fails for arbitrary popover widths. -/
theorem C8_counterexample :
    popoverLeft 800 320 465 100 + 465 = 473 ∧
    ¬(popoverLeft 800 320 465 100 + 465 ≤ 800 - 320 - 8) := by
  decide

/-- Claim C8, amended: with viewport width 800 and reserved sidebar width
320, for every anchor rectangle and every popover width of at most
`800 - 320 - 16 = 464` (the code reserves a 16px padding, and the minimum
left margin of 8 takes precedence for wider popovers), the computed left
coordinate is at least 8 and the right edge never exceeds `800 - 320 - 8`. -/
theorem C8_popover_clamped (rectLeft tipWidth : Int) (h : tipWidth ≤ 464) :
    8 ≤ popoverLeft 800 320 tipWidth rectLeft ∧
    popoverLeft 800 320 tipWidth rectLeft + tipWidth ≤ 800 - 320 - 8 := by
  simp only [popoverLeft]
  split_ifs <;> omega

/-- Witness for C8: a 240px-wide popover anchored at left 700 is clamped
into the allowed band. -/
theorem C8_witness :
    (240 : Int) ≤ 464 ∧
    (8 ≤ popoverLeft 800 320 240 700 ∧
      popoverLeft 800 320 240 700 + 240 ≤ 800 - 320 - 8) :=
  ⟨by decide, C8_popover_clamped 700 240 (by decide)⟩

/-- Claim C9, counterexample: the vocabulary `["Cat", "cat"]` compiles to
the two entries `["Cat", "cat"]` — deduplication uses exact string
identity, so two entries that are equal after lower-casing both reach the
alternation, refuting case-insensitive deduplication. -/
theorem C9_counterexample :
    computeWords [cs "Cat", cs "cat"] = [cs "Cat", cs "cat"] ∧
    ¬ List.Pairwise (fun a b => lowerW a ≠ lowerW b)
      (computeWords [cs "Cat", cs "cat"]) := by
  decide

/-- Claim C9, amended: term deduplication is case-sensitive: for every
input vocabulary, the words compiled into the matcher alternation contain
no two entries that are equal as exact strings (after trimming); entries
differing only in letter case are kept as distinct compiled entries. -/
theorem C9_dedup_exact (vocab : List (List Char)) :
    (computeWords vocab).Nodup :=
  dedupSeen_nodup _ []

/-- Claim C10: for every term set and text node, the concatenated text of
the replacement fragment equals the original node text, and hence the
apply pass never changes the document's text content. -/
theorem C10_fragment_text (ws : List (List Char)) (t : List Char) (d : Doc) :
    concatText (segmentText ws t) = t ∧
    docText (applyDoc ws d) = docText d :=
  ⟨segmentText_text ws t, applyDoc_text ws d⟩
